import Mathlib

/-!
Verification of the archive store and directory scanner of the `ubiquity`
file-synchronisation engine (`src/archive.rs`, `src/detect/util.rs`).

The Rust code is shallowly embedded: machine integers become `Nat` with
explicit bounds, the backing archive file becomes an optional byte list,
`bincode` serialisation of the entry table becomes an explicit, executable
encode/decode pair over that byte list, and fallible operations return
`Except`.
-/

namespace Ubiquity

/-! ## Little-endian byte encoding (models byteorder's read_u32/write_u32 and
fixed-width u64 fields of the bincode payload) -/

/-- `toLE w n` is the `w`-byte little-endian encoding of `n` (mod `256 ^ w`). -/
def toLE : Nat → Nat → List Nat
  | 0, _ => []
  | w + 1, n => n % 256 :: toLE w (n / 256)

/-- Read `w` little-endian bytes off the front of a stream, returning the
value and the remaining stream; `none` when the stream is too short. -/
def readLE : Nat → List Nat → Option (Nat × List Nat)
  | 0, l => some (0, l)
  | _ + 1, [] => none
  | w + 1, b :: l =>
    match readLE w l with
    | some (n, rest) => some (b + 256 * n, rest)
    | none => none

theorem toLE_length (w n : Nat) : (toLE w n).length = w := by
  induction w generalizing n with
  | zero => rfl
  | succ w ih => simp [toLE, ih]

theorem readLE_toLE (w n : Nat) (rest : List Nat) (h : n < 256 ^ w) :
    readLE w (toLE w n ++ rest) = some (n, rest) := by
  induction w generalizing n with
  | zero =>
    have : n = 0 := Nat.lt_one_iff.mp (by simpa using h)
    simp [toLE, readLE, this]
  | succ w ih =>
    have hdiv : n / 256 < 256 ^ w := by
      have h256 : 0 < 256 := by norm_num
      rw [Nat.div_lt_iff_lt_mul h256]
      calc n < 256 ^ (w + 1) := h
        _ = 256 ^ w * 256 := by ring
    have hih := ih (n / 256) hdiv
    simp only [toLE, List.cons_append, readLE, List.append_eq]
    rw [hih]
    simp [Nat.mod_add_div]

/-! ## Per-replica entry state

Modelled from the spec: `ArchiveEntryPerReplica` lives in `src/state.rs`,
which is not among the given source files.  The spec requires only an
equality-comparable type with a distinguished `Empty`/absent value, the
other variants (file with metadata, directory, ...) being opaque payloads;
we model the payload as a bounded natural. -/

inductive ArchiveEntryPerReplica where
  | Empty : ArchiveEntryPerReplica
  | File : Nat → ArchiveEntryPerReplica
  | Directory : Nat → ArchiveEntryPerReplica
deriving DecidableEq

/-- The path hash key type (`pub type HashedPath = u64`). -/
abbrev HashedPath := Nat

/-- One N-wide row: `GenericArray<ArchiveEntryPerReplica, N>`. -/
abbrev EntryRow := List ArchiveEntryPerReplica

/-- `FnvHashMap<HashedPath, GenericArray<ArchiveEntryPerReplica, N>>`,
modelled as an association list whose keys are distinct. -/
abbrev ArchiveEntryMap := List (HashedPath × EntryRow)

/-- A payload value fits in the machine word used on the wire. -/
def wfEntry : ArchiveEntryPerReplica → Bool
  | .Empty => true
  | .File m => m < 2 ^ 64
  | .Directory m => m < 2 ^ 64

/-! ## Serialisation (models `write_entries` / bincode's
`serialize_into`/`deserialize_from` over the entry map) -/

def encodeEntry : ArchiveEntryPerReplica → List Nat
  | .Empty => 0 :: toLE 8 0
  | .File m => 1 :: toLE 8 m
  | .Directory m => 2 :: toLE 8 m

def decodeEntry : List Nat → Option (ArchiveEntryPerReplica × List Nat)
  | [] => none
  | t :: l =>
    match readLE 8 l with
    | none => none
    | some (m, rest) =>
      if t = 0 then some (.Empty, rest)
      else if t = 1 then some (.File m, rest)
      else if t = 2 then some (.Directory m, rest)
      else none

def encodeRow : EntryRow → List Nat
  | [] => []
  | e :: es => encodeEntry e ++ encodeRow es

/-- Decode exactly `n` entries (the row width `N` is fixed by the type
parameter in the Rust code, so the stream carries no per-row length). -/
def decodeRow : Nat → List Nat → Option (EntryRow × List Nat)
  | 0, l => some ([], l)
  | n + 1, l =>
    match decodeEntry l with
    | none => none
    | some (e, l1) =>
      match decodeRow n l1 with
      | none => none
      | some (es, l2) => some (e :: es, l2)

def encodePairs : ArchiveEntryMap → List Nat
  | [] => []
  | (k, r) :: ps => toLE 8 k ++ encodeRow r ++ encodePairs ps

def decodePairs (N : Nat) : Nat → List Nat → Option (ArchiveEntryMap × List Nat)
  | 0, l => some ([], l)
  | c + 1, l =>
    match readLE 8 l with
    | none => none
    | some (k, l1) =>
      match decodeRow N l1 with
      | none => none
      | some (r, l2) =>
        match decodePairs N c l2 with
        | none => none
        | some (ps, l3) => some ((k, r) :: ps, l3)

def encodeMap (m : ArchiveEntryMap) : List Nat :=
  toLE 8 m.length ++ encodePairs m

def decodeMap (N : Nat) (l : List Nat) : Option ArchiveEntryMap :=
  match readLE 8 l with
  | none => none
  | some (c, l1) =>
    match decodePairs N c l1 with
    | none => none
    | some (ps, _) => some ps

theorem decodeEntry_encodeEntry (e : ArchiveEntryPerReplica) (rest : List Nat)
    (h : wfEntry e = true) :
    decodeEntry (encodeEntry e ++ rest) = some (e, rest) := by
  have h64 : (256 : Nat) ^ 8 = 2 ^ 64 := by norm_num
  cases e with
  | Empty =>
    simp [encodeEntry, decodeEntry, readLE_toLE 8 0 rest (by norm_num)]
  | File m =>
    have hm : m < 256 ^ 8 := by
      rw [h64]; simpa [wfEntry] using h
    simp [encodeEntry, decodeEntry, readLE_toLE 8 m rest hm]
  | Directory m =>
    have hm : m < 256 ^ 8 := by
      rw [h64]; simpa [wfEntry] using h
    simp [encodeEntry, decodeEntry, readLE_toLE 8 m rest hm]

theorem decodeRow_encodeRow (r : EntryRow) (rest : List Nat)
    (h : ∀ e ∈ r, wfEntry e = true) :
    decodeRow r.length (encodeRow r ++ rest) = some (r, rest) := by
  induction r with
  | nil => simp [encodeRow, decodeRow]
  | cons e es ih =>
    have he : wfEntry e = true := h e (by simp)
    have hes : ∀ x ∈ es, wfEntry x = true := fun x hx => h x (by simp [hx])
    simp only [encodeRow, List.length_cons, List.append_assoc, decodeRow,
      decodeEntry_encodeEntry e _ he, ih hes]

/-- Keys fit in a u64, every row is `N` wide with in-range payloads, and the
map is small enough for its length to fit the wire count field.  All of
these hold of the Rust data by construction of its types. -/
def WFMap (N : Nat) (m : ArchiveEntryMap) : Prop :=
  m.length < 2 ^ 64 ∧
    ∀ p ∈ m, p.1 < 2 ^ 64 ∧ p.2.length = N ∧ ∀ e ∈ p.2, wfEntry e = true

instance (N : Nat) (m : ArchiveEntryMap) : Decidable (WFMap N m) := by
  unfold WFMap; infer_instance

theorem decodePairs_encodePairs (N : Nat) (m : ArchiveEntryMap) (rest : List Nat)
    (h : ∀ p ∈ m, p.1 < 2 ^ 64 ∧ p.2.length = N ∧ ∀ e ∈ p.2, wfEntry e = true) :
    decodePairs N m.length (encodePairs m ++ rest) = some (m, rest) := by
  induction m with
  | nil => simp [encodePairs, decodePairs]
  | cons p ps ih =>
    obtain ⟨hk, hlen, hwf⟩ := h p (by simp)
    have hps : ∀ q ∈ ps, q.1 < 2 ^ 64 ∧ q.2.length = N ∧ ∀ e ∈ q.2, wfEntry e = true :=
      fun q hq => h q (by simp [hq])
    have hk' : p.1 < 256 ^ 8 := by
      have h64 : (256 : Nat) ^ 8 = 2 ^ 64 := by norm_num
      rw [h64]; exact hk
    have hrow := decodeRow_encodeRow p.2 (encodePairs ps ++ rest) hwf
    rw [hlen] at hrow
    simp only [encodePairs, List.length_cons, List.append_assoc, decodePairs,
      readLE_toLE 8 p.1 _ hk', hrow, ih hps]

theorem decodeMap_encodeMap (N : Nat) (m : ArchiveEntryMap) (h : WFMap N m) :
    decodeMap N (encodeMap m) = some m := by
  obtain ⟨hlen, hp⟩ := h
  have hlen' : m.length < 256 ^ 8 := by
    have h64 : (256 : Nat) ^ 8 = 2 ^ 64 := by norm_num
    rw [h64]; exact hlen
  have hdp := decodePairs_encodePairs N m [] hp
  rw [List.append_nil] at hdp
  simp [decodeMap, encodeMap, readLE_toLE 8 m.length _ hlen', hdp]

/-! ## Association-list lookup (semantics of the FnvHashMap keyed maps) -/

def alookup {κ α : Type} [DecidableEq κ] (k : κ) : List (κ × α) → Option α
  | [] => none
  | (k1, v) :: rest => if k1 = k then some v else alookup k rest

theorem alookup_eq_none_of_not_mem {κ α : Type} [DecidableEq κ] (k : κ)
    (l : List (κ × α)) (h : k ∉ l.map Prod.fst) : alookup k l = none := by
  induction l with
  | nil => rfl
  | cons p tl ih =>
    simp only [List.map_cons, List.mem_cons, not_or] at h
    obtain ⟨h1, h2⟩ := h
    obtain ⟨k1, v⟩ := p
    simp only [alookup]
    rw [if_neg (by simpa using fun e => h1 e.symm)]
    exact ih h2

theorem alookup_isSome_iff {κ α : Type} [DecidableEq κ] (k : κ) (l : List (κ × α)) :
    (alookup k l).isSome = true ↔ k ∈ l.map Prod.fst := by
  induction l with
  | nil => simp [alookup]
  | cons p tl ih =>
    obtain ⟨k1, v⟩ := p
    by_cases hk : k1 = k
    · subst hk
      simp [alookup]
    · simp only [alookup, if_neg hk, List.map_cons, List.mem_cons]
      rw [ih]
      constructor
      · exact fun h => Or.inr h
      · rintro (h | h)
        · exact absurd h.symm hk
        · exact h

theorem alookup_filter {κ α : Type} [DecidableEq κ] (k : κ) (p : κ × α → Bool)
    (l : List (κ × α)) (hnd : (l.map Prod.fst).Nodup) :
    alookup k (l.filter p) =
      (alookup k l).bind (fun v => if p (k, v) then some v else none) := by
  induction l with
  | nil => simp [alookup]
  | cons q tl ih =>
    obtain ⟨k1, v⟩ := q
    simp only [List.map_cons, List.nodup_cons] at hnd
    obtain ⟨hk1, hnd'⟩ := hnd
    by_cases hk : k1 = k
    · subst hk
      by_cases hp : p (k1, v) = true
      · simp [List.filter, hp, alookup]
      · have hnone : alookup k1 (tl.filter p) = none := by
          refine alookup_eq_none_of_not_mem k1 _ (fun hmem => hk1 ?_)
          have : (tl.filter p).map Prod.fst ⊆ tl.map Prod.fst :=
            fun x hx => by
              obtain ⟨q, hq, rfl⟩ := List.mem_map.mp hx
              exact List.mem_map.mpr ⟨q, (List.mem_filter.mp hq).1, rfl⟩
          exact this hmem
        simp [List.filter, hp, alookup, hnone, Bool.eq_false_iff.mpr hp]
    · by_cases hp : p (k1, v) = true
      · simp [List.filter, hp, alookup, if_neg hk, ih hnd']
      · simp [List.filter, Bool.eq_false_iff.mpr hp, alookup, if_neg hk, ih hnd']

theorem alookup_append {κ α : Type} [DecidableEq κ] (k : κ) (l1 l2 : List (κ × α)) :
    alookup k (l1 ++ l2) =
      match alookup k l1 with
      | some v => some v
      | none => alookup k l2 := by
  induction l1 with
  | nil => simp [alookup]
  | cons p tl ih =>
    obtain ⟨k1, v⟩ := p
    by_cases hk : k1 = k
    · simp [alookup, hk]
    · simp [alookup, if_neg hk, ih]

/-! ## The archive module (`src/archive.rs`) -/

def ARCHIVE_VERSION : Nat := 3

/-- Errors of `ArchiveFile::read` (`enum ReadError`); the payload carried by
the I/O and bincode variants is irrelevant to the control flow and dropped. -/
inductive ReadError where
  | InvalidArchiveVersion : Nat → ReadError
  | IoError : ReadError
  | BincodeError : ReadError
deriving DecidableEq

/-- Errors of `ArchiveFile::write` (`enum WriteError`). -/
inductive WriteError where
  | IoError : WriteError
  | BincodeError : WriteError
deriving DecidableEq

/-- `struct ArchiveEntries<N>`: the in-memory entry table plus dirty flag. -/
structure ArchiveEntries where
  entries : ArchiveEntryMap
  dirty : Bool
deriving DecidableEq

def ArchiveEntries.empty : ArchiveEntries := { entries := [], dirty := false }

def ArchiveEntries.new (entries : ArchiveEntryMap) : ArchiveEntries :=
  { entries := entries, dirty := false }

/-- The per-row loop body of `prune_deleted`: `delete` starts `true` and any
non-`Empty` replica clears it, so the result is `true` iff every slot is
`Empty`. -/
def rowDelete (row : EntryRow) : Bool :=
  row.foldl
    (fun delete replica =>
      match replica with
      | ArchiveEntryPerReplica.Empty => delete
      | _ => false)
    true

/-- `ArchiveEntries::prune_deleted`: collect the keys of rows whose every
replica is `Empty` and remove them; on the map this is filtering the rows
that keep at least one non-empty slot.  The dirty flag is untouched. -/
def ArchiveEntries.prune_deleted (e : ArchiveEntries) : ArchiveEntries :=
  { e with entries := e.entries.filter (fun p => !rowDelete p.2) }

/-- `struct ArchiveFile`: `contents` is the backing file on disk (`none` when
the path does not exist), `handle` models the cached `file: Option<fs::File>`
and `locked` whether the exclusive advisory lock was acquired. -/
structure ArchiveFile where
  contents : Option (List Nat)
  handle : Bool
  locked : Bool
deriving DecidableEq

/-- `ArchiveFile::remove_all`: delete the backing file and drop the cached
handle when the path exists; a no-op otherwise. -/
def ArchiveFile.remove_all (af : ArchiveFile) : ArchiveFile :=
  if af.contents.isSome then { af with handle := false, contents := none } else af

/-- `ArchiveFile::open_file`: read+write+create open (creates an empty file
if the path is missing) followed by `lock_exclusive`. -/
def ArchiveFile.open_file (af : ArchiveFile) : ArchiveFile :=
  { af with contents := some (af.contents.getD []), locked := true }

/-- `fn read_entries`: 4-byte little-endian version tag, then the bincode
payload. -/
def read_entries (N : Nat) (stream : List Nat) : Except ReadError ArchiveEntryMap :=
  match readLE 4 stream with
  | none => .error .IoError
  | some (version, rest) =>
    if version ≠ ARCHIVE_VERSION then .error (.InvalidArchiveVersion version)
    else
      match decodeMap N rest with
      | some m => .ok m
      | none => .error .BincodeError

/-- `fn read_from_file`: seek to 0 and parse; a version mismatch is absorbed
into `Ok(Default::default())`, everything else propagates. -/
def read_from_file (N : Nat) (bytes : List Nat) : Except ReadError ArchiveEntryMap :=
  match read_entries N bytes with
  | .ok i => .ok i
  | .error (.InvalidArchiveVersion _) => .ok []
  | .error e => .error e

/-- `fn write_entries`: version tag then serialised map. -/
def write_entries (m : ArchiveEntryMap) : List Nat :=
  toLE 4 ARCHIVE_VERSION ++ encodeMap m

/-- `ArchiveFile::read`: reuse the cached handle, else open the existing
file (caching handle and lock), else report the empty table. -/
def ArchiveFile.read (af : ArchiveFile) (N : Nat) :
    Except ReadError (ArchiveEntries × ArchiveFile) :=
  if af.handle then
    match read_from_file N (af.contents.getD []) with
    | .ok data => .ok (ArchiveEntries.new data, af)
    | .error e => .error e
  else if af.contents.isSome then
    let af1 := af.open_file
    match read_from_file N (af1.contents.getD []) with
    | .ok res => .ok (ArchiveEntries.new res, { af1 with handle := true })
    | .error e => .error e
  else
    .ok (ArchiveEntries.empty, af)

/-- `ArchiveFile::write`: prune, then either delete the backing file (pruned
table empty) or truncate-and-rewrite it through the cached or a freshly
opened handle. -/
def ArchiveFile.write (af : ArchiveFile) (entries : ArchiveEntries) :
    Except WriteError (ArchiveEntries × ArchiveFile) :=
  let entries := entries.prune_deleted
  if entries.entries.isEmpty then
    .ok (entries, af.remove_all)
  else if af.handle then
    .ok (entries, { af with contents := some (write_entries entries.entries) })
  else
    let af1 := af.open_file
    .ok (entries, { af1 with contents := some (write_entries entries.entries), handle := true })

theorem read_from_file_write_entries (N : Nat) (m : ArchiveEntryMap) (h : WFMap N m) :
    read_from_file N (write_entries m) = .ok m := by
  unfold write_entries read_from_file read_entries
  rw [readLE_toLE 4 ARCHIVE_VERSION _ (by norm_num [ARCHIVE_VERSION])]
  simp [ARCHIVE_VERSION, decodeMap_encodeMap N m h]

theorem prune_deleted_entries_eq_self (T : ArchiveEntries)
    (h : ∀ p ∈ T.entries, rowDelete p.2 = false) :
    T.prune_deleted.entries = T.entries := by
  simp only [ArchiveEntries.prune_deleted]
  exact List.filter_eq_self.mpr (fun a ha => by simp [h a ha])

/-- C1: for a table with no fully-empty rows, `write` followed by `read` on
the same archive file returns `Ok` of a table whose entries equal the
original table's entries. -/
theorem archive_write_read_roundtrip (N : Nat) (af : ArchiveFile) (T : ArchiveEntries)
    (hwf : WFMap N T.entries)
    (hrows : ∀ p ∈ T.entries, rowDelete p.2 = false)
    (hinv : af.handle = true → af.contents.isSome = true) :
    ∃ af1 R af2, af.write T = .ok (T.prune_deleted, af1) ∧
      af1.read N = .ok (R, af2) ∧ R.entries = T.entries := by
  have hprune := prune_deleted_entries_eq_self T hrows
  by_cases hT : T.entries = []
  · refine ⟨af.remove_all, ArchiveEntries.empty, af.remove_all, ?_, ?_,
      by simp [ArchiveEntries.empty, hT]⟩
    · simp [ArchiveFile.write, hprune, hT]
    · cases hco : af.contents with
      | none =>
        have hh : af.handle = false := by
          cases hhh : af.handle with
          | false => rfl
          | true => have := hinv hhh; rw [hco] at this; simp at this
        simp [ArchiveFile.remove_all, hco, ArchiveFile.read, hh]
      | some b =>
        simp [ArchiveFile.remove_all, hco, ArchiveFile.read]
  · have hne : T.prune_deleted.entries.isEmpty = false := by
      rw [hprune]
      cases h' : T.entries with
      | nil => exact absurd h' hT
      | cons a l => rfl
    have hrt := read_from_file_write_entries N T.entries hwf
    cases hh : af.handle with
    | true =>
      refine ⟨{ af with contents := some (write_entries T.prune_deleted.entries) },
        ArchiveEntries.new T.entries,
        { af with contents := some (write_entries T.prune_deleted.entries) }, ?_, ?_, rfl⟩
      · simp [ArchiveFile.write, hne, hh]
      · simp [ArchiveFile.read, hh, hprune, hrt]
    | false =>
      refine ⟨{ af with
          contents := some (write_entries T.prune_deleted.entries)
          handle := true
          locked := true },
        ArchiveEntries.new T.entries,
        { af with
          contents := some (write_entries T.prune_deleted.entries)
          handle := true
          locked := true }, ?_, ?_, rfl⟩
      · simp [ArchiveFile.write, hne, hh, ArchiveFile.open_file]
      · simp [ArchiveFile.read, hprune, hrt]

/-- Concrete input for the C1 round-trip theorem: one backing-file-less
archive file and a one-row table. -/
def rtTable : ArchiveEntries :=
  { entries := [(5, [ArchiveEntryPerReplica.File 7])], dirty := false }

/-- Witness: the C1 theorem applied at a concrete archive file and table. -/
theorem archive_write_read_roundtrip_witness :
    ∃ af1 R af2,
      ArchiveFile.write { contents := none, handle := false, locked := false } rtTable =
        .ok (rtTable.prune_deleted, af1) ∧
      af1.read 1 = .ok (R, af2) ∧ R.entries = rtTable.entries :=
  archive_write_read_roundtrip 1 { contents := none, handle := false, locked := false }
    rtTable (by decide) (by decide) (by decide)

/-- C2: after `prune_deleted`, a hashed path present in the table is gone
iff its row was fully `Empty`; rows with a non-empty slot keep their value;
absent keys stay absent; and pruning is idempotent. -/
theorem prune_deleted_spec (T : ArchiveEntries)
    (hnd : (T.entries.map Prod.fst).Nodup) :
    (∀ k r, alookup k T.entries = some r →
        ((alookup k T.prune_deleted.entries = none ↔ rowDelete r = true) ∧
          (rowDelete r = false → alookup k T.prune_deleted.entries = some r))) ∧
    (∀ k, alookup k T.entries = none → alookup k T.prune_deleted.entries = none) ∧
    T.prune_deleted.prune_deleted = T.prune_deleted := by
  have hf : ∀ k, alookup k T.prune_deleted.entries =
      (alookup k T.entries).bind (fun v => if !rowDelete v then some v else none) := by
    intro k
    have := alookup_filter k (fun p => !rowDelete p.2) T.entries hnd
    simpa [ArchiveEntries.prune_deleted] using this
  refine ⟨?_, ?_, ?_⟩
  · intro k r hk
    rw [hf k, hk]
    constructor
    · cases hrd : rowDelete r with
      | true => simp [hrd]
      | false => simp [hrd]
    · intro hrd
      simp [hrd]
  · intro k hk
    rw [hf k, hk]
    rfl
  · simp [ArchiveEntries.prune_deleted, List.filter_filter]

/-- Concrete table for the C2 witness: one fully-empty row and one live row. -/
def pruneTable : ArchiveEntries :=
  { entries := [(1, [ArchiveEntryPerReplica.Empty]), (2, [ArchiveEntryPerReplica.File 3])],
    dirty := true }

/-- Witness: the C2 theorem applied at a concrete two-row table. -/
theorem prune_deleted_spec_witness :
    (∀ k r, alookup k pruneTable.entries = some r →
        ((alookup k pruneTable.prune_deleted.entries = none ↔ rowDelete r = true) ∧
          (rowDelete r = false → alookup k pruneTable.prune_deleted.entries = some r))) ∧
    (∀ k, alookup k pruneTable.entries = none →
        alookup k pruneTable.prune_deleted.entries = none) ∧
    pruneTable.prune_deleted.prune_deleted = pruneTable.prune_deleted :=
  prune_deleted_spec pruneTable (by decide)

/-- C3: writing a table whose rows are all fully empty deletes the backing
file when it exists (dropping the cached handle), performs no file creation
when it does not, returns `Ok` either way, and leaves no payload behind. -/
theorem write_empty_table_deletes_file (af : ArchiveFile) (T : ArchiveEntries)
    (h : ∀ p ∈ T.entries, rowDelete p.2 = true) :
    ∃ af1, af.write T = .ok (T.prune_deleted, af1) ∧
      T.prune_deleted.entries = [] ∧
      af1.contents = none ∧
      (af.contents.isSome = true → af1 = { af with contents := none, handle := false }) ∧
      (af.contents = none → af1 = af) := by
  have hempty : T.prune_deleted.entries = [] := by
    simp only [ArchiveEntries.prune_deleted]
    refine List.filter_eq_nil_iff.mpr ?_
    intro a ha
    simp [h a ha]
  cases hco : af.contents with
  | none =>
    refine ⟨af, ?_, hempty, hco, ?_, fun _ => rfl⟩
    · simp [ArchiveFile.write, hempty, ArchiveFile.remove_all, hco]
    · intro hcs
      simp at hcs
  | some b =>
    refine ⟨{ af with contents := none, handle := false }, ?_, hempty, rfl, fun _ => rfl, ?_⟩
    · simp [ArchiveFile.write, hempty, ArchiveFile.remove_all, hco]
    · intro hcn
      simp at hcn

/-- Concrete table for the C3 witness: a single fully-empty two-wide row. -/
def emptyRowTable : ArchiveEntries :=
  { entries := [(4, [ArchiveEntryPerReplica.Empty, ArchiveEntryPerReplica.Empty])],
    dirty := true }

/-- Witness: the C3 theorem applied at an archive file with a backing file
and a cached handle. -/
theorem write_empty_table_deletes_file_witness :
    ∃ af1,
      ArchiveFile.write { contents := some [9, 9], handle := true, locked := true }
          emptyRowTable =
        .ok (emptyRowTable.prune_deleted, af1) ∧
      emptyRowTable.prune_deleted.entries = [] ∧
      af1.contents = none ∧
      ((ArchiveFile.mk (some [9, 9]) true true).contents.isSome = true →
        af1 = { ArchiveFile.mk (some [9, 9]) true true with
          contents := none, handle := false }) ∧
      ((ArchiveFile.mk (some [9, 9]) true true).contents = none →
        af1 = ArchiveFile.mk (some [9, 9]) true true) :=
  write_empty_table_deletes_file (ArchiveFile.mk (some [9, 9]) true true)
    emptyRowTable (by decide)

/-- C4: reading an existing archive file whose leading 4 little-endian bytes
are not the version constant 3 returns `Ok` with the empty table, and the
read leaves the file contents unmodified. -/
theorem read_version_mismatch_soft_reset (N : Nat) (af : ArchiveFile)
    (bytes : List Nat) (v : Nat) (rest : List Nat)
    (hc : af.contents = some bytes)
    (hread : readLE 4 bytes = some (v, rest))
    (hv : v ≠ ARCHIVE_VERSION) :
    ∃ af2, af.read N = .ok (ArchiveEntries.empty, af2) ∧ af2.contents = some bytes := by
  have hrf : read_from_file N bytes = .ok [] := by
    simp [read_from_file, read_entries, hread, hv]
  cases hh : af.handle with
  | true =>
    refine ⟨af, ?_, hc⟩
    simp [ArchiveFile.read, hh, hc, hrf, ArchiveEntries.empty, ArchiveEntries.new]
  | false =>
    refine ⟨{ af with contents := some bytes, handle := true, locked := true }, ?_, rfl⟩
    simp [ArchiveFile.read, hh, hc, ArchiveFile.open_file, hrf,
      ArchiveEntries.empty, ArchiveEntries.new]

/-- Witness: the C4 theorem applied at a four-byte file whose version tag
reads as 0. -/
theorem read_version_mismatch_soft_reset_witness :
    ∃ af2,
      ArchiveFile.read { contents := some [0, 0, 0, 0], handle := false, locked := false } 1 =
        .ok (ArchiveEntries.empty, af2) ∧ af2.contents = some [0, 0, 0, 0] :=
  read_version_mismatch_soft_reset 1
    { contents := some [0, 0, 0, 0], handle := false, locked := false }
    [0, 0, 0, 0] 0 [] rfl (by decide) (by decide)

/-- C5: with no cached handle and no backing file, `read` returns `Ok` of
the empty table (zero rows, not dirty) and leaves the archive-file state
untouched (nothing is opened, created or locked). -/
theorem read_missing_file_returns_empty (N : Nat) (af : ArchiveFile)
    (hh : af.handle = false) (hc : af.contents = none) :
    af.read N = .ok (ArchiveEntries.empty, af) ∧
      ArchiveEntries.empty.entries = [] ∧ ArchiveEntries.empty.dirty = false := by
  refine ⟨?_, rfl, rfl⟩
  simp [ArchiveFile.read, hh, hc]

/-- Witness: the C5 theorem applied at a closed, fileless archive file. -/
theorem read_missing_file_returns_empty_witness :
    ArchiveFile.read { contents := none, handle := false, locked := false } 2 =
      .ok (ArchiveEntries.empty, { contents := none, handle := false, locked := false }) ∧
      ArchiveEntries.empty.entries = [] ∧ ArchiveEntries.empty.dirty = false :=
  read_missing_file_returns_empty 2
    { contents := none, handle := false, locked := false } rfl rfl

/-! ## The detect utilities (`src/detect/util.rs`) -/

/-- A compiled regex token: regex `.` (any character except newline) or a
literal character.  `regex::Regex` is an external crate; the configured
patterns exercised here are plain literal/dot patterns. -/
inductive RTok where
  | dot : RTok
  | lit : Char → RTok
deriving DecidableEq

def rtokMatches : RTok → Char → Bool
  | .dot, c => c != '\n'
  | .lit c, c1 => c == c1

def matchesAt : List RTok → List Char → Bool
  | [], _ => true
  | _ :: _, [] => false
  | t :: ts, c :: cs => rtokMatches t c && matchesAt ts cs

def searchFrom (r : List RTok) : List Char → Bool
  | [] => matchesAt r []
  | c :: cs => matchesAt r (c :: cs) || searchFrom r cs

/-- `Regex::is_match`: unanchored search over the subject string. -/
def is_match (r : List RTok) (s : String) : Bool :=
  searchFrom r s.data

/-- A filesystem path as the ignore filter sees it: its components, plus
whether its OS-string form is valid UTF-8 (`Path::to_str` returns `Some`
exactly then). -/
structure MPath where
  components : List String
  validUtf8 : Bool
deriving DecidableEq

/-- `Path::to_str`. -/
def MPath.to_str (p : MPath) : Option String :=
  if p.validUtf8 then some (String.intercalate "/" p.components) else none

/-- `Path::starts_with`: component-wise prefix test. -/
def MPath.starts_with (p : MPath) (pre : List String) : Bool :=
  List.isPrefixOf pre p.components

/-- Modelled from the spec: `config::Ignore` (`src/config.rs` is not among
the given source files) holds an ordered list of literal path prefixes and
an ordered list of regexes. -/
structure Ignore where
  paths : List (List String)
  regexes : List (List RTok)

/-- `is_ignored`: the literal-prefix loop, then the regex loop.  Every regex
iteration calls `path.to_str().unwrap()`, so a path without a UTF-8 string
form panics there; the panic is modelled as `none`. -/
def is_ignored (ignore : Ignore) (path : MPath) : Option Bool :=
  if ignore.paths.any (fun ig => path.starts_with ig) then some true
  else if ignore.regexes.isEmpty then some false
  else
    match path.to_str with
    | some s => some (ignore.regexes.any (fun ig => is_match ig s))
    | none => none

/-- `are_archive_files_identical`: zip the two N-wide rows and compare
slot-wise, false at the first difference. -/
def are_archive_files_identical (a b : EntryRow) : Bool :=
  (a.zip b).all (fun p => p.1 == p.2)

abbrev Root := List String
abbrev RelPath := List String

/-- The live filesystem as the scanner observes it: the directory test, the
direct children names of a directory, and the per-path replica state probed
by `ArchiveEntryPerReplica::from_roots`. -/
structure FS where
  isDir : List String → Bool
  childNames : List String → List String
  entryAt : List String → ArchiveEntryPerReplica

/-- Modelled from the spec: `ArchiveEntryPerReplica::from_roots`
(`src/state.rs` is not among the given source files) probes every root for
the state at `root/relative_path`, one slot per root in root-list order. -/
def from_roots (fs : FS) (roots : List Root) (relative_path : RelPath) : EntryRow :=
  roots.map (fun root => fs.entryAt (root ++ relative_path))

/-- Modelled from the spec: the root list and ignore rules of
`config::SyncInfo` (`src/config.rs` is not among the given source files). -/
structure SyncInfo where
  roots : List Root
  ignore : Ignore

abbrev PathEntryMap := List (RelPath × EntryRow)

/-- `HashMap::entry(k).or_insert_with(v)`: insert only when the key is
absent. -/
def entryOrInsertWith (m : PathEntryMap) (k : RelPath) (v : EntryRow) : PathEntryMap :=
  if (alookup k m).isSome then m else m ++ [(k, v)]

/-- The inner `for item in fs::read_dir(..)` loop of
`scan_directory_contents`: each child's relative path is `directory/name`;
ignored entries are skipped, the rest get a full row spanning all roots. -/
def scanChildren (fs : FS) (config : SyncInfo) (directory : RelPath)
    (names : List String) (current_entries : PathEntryMap) : PathEntryMap :=
  names.foldl
    (fun cur name =>
      if is_ignored config.ignore
          { components := directory ++ [name], validUtf8 := true } = some true then cur
      else entryOrInsertWith cur (directory ++ [name])
        (from_roots fs config.roots (directory ++ [name])))
    current_entries

/-- The outer `for root in config.roots` loop, threading the entry map and
the `sd_present_in_all_replicas` flag. -/
def scanRoots (fs : FS) (config : SyncInfo) (directory : RelPath) :
    List Root → PathEntryMap → Bool → PathEntryMap × Bool
  | [], m, present => (m, present)
  | root :: rest, m, present =>
    if fs.isDir (root ++ directory) then
      scanRoots fs config directory rest
        (scanChildren fs config directory (fs.childNames (root ++ directory)) m) present
    else
      scanRoots fs config directory rest m false

/-- `scan_directory_contents`: union the direct children of
`root/directory` over all roots, then synthesize a row for the directory
itself when some root lacks it as a directory (note: without an ignore
check on that synthesized row). -/
def scan_directory_contents (fs : FS) (directory : RelPath)
    (current_entries : PathEntryMap) (config : SyncInfo) : PathEntryMap :=
  let r := scanRoots fs config directory config.roots current_entries true
  if r.2 then r.1
  else entryOrInsertWith r.1 directory (from_roots fs config.roots directory)

theorem is_ignored_valid (ig : Ignore) (comps : List String) :
    is_ignored ig { components := comps, validUtf8 := true } =
      some (ig.paths.any (fun pre => List.isPrefixOf pre comps) ||
        ig.regexes.any (fun r => is_match r (String.intercalate "/" comps))) := by
  simp only [is_ignored, MPath.starts_with, MPath.to_str]
  cases hp : ig.paths.any (fun pre => List.isPrefixOf pre comps) with
  | true => simp [hp]
  | false =>
    cases hre : ig.regexes with
    | nil => simp [hp, hre]
    | cons r rs => simp [hp, hre]

/-- The spec's example ignore rule set: literal prefix
`"Microsoft User Data"` and the regex `.DS_Store`. -/
def exampleIgnore : Ignore :=
  { paths := [["Microsoft User Data"]]
    regexes := [[RTok.dot, RTok.lit 'D', RTok.lit 'S', RTok.lit '_', RTok.lit 'S',
      RTok.lit 't', RTok.lit 'o', RTok.lit 'r', RTok.lit 'e']] }

/-- C6: `is_ignored` returns true exactly when the path starts with some
configured literal prefix or its string form matches some configured regex;
in particular it accepts a path under the configured prefix and a path
matching the configured regex, and rejects an unrelated path. -/
theorem is_ignored_spec :
    (∀ (ig : Ignore) (comps : List String),
        is_ignored ig { components := comps, validUtf8 := true } =
          some (decide ((∃ pre ∈ ig.paths, List.isPrefixOf pre comps = true) ∨
            ∃ r ∈ ig.regexes, is_match r (String.intercalate "/" comps) = true))) ∧
    is_ignored exampleIgnore
      { components := ["Microsoft User Data", "x.tmp"], validUtf8 := true } = some true ∧
    is_ignored exampleIgnore
      { components := ["a", ".DS_Store"], validUtf8 := true } = some true ∧
    is_ignored exampleIgnore
      { components := ["docs", "readme.txt"], validUtf8 := true } = some false := by
  refine ⟨?_, by decide, by decide, by decide⟩
  intro ig comps
  rw [is_ignored_valid]
  congr 1
  rw [Bool.eq_iff_iff]
  simp [List.any_eq_true]

theorem are_identical_iff_eq : ∀ (a b : EntryRow), a.length = b.length →
    (are_archive_files_identical a b = true ↔ a = b)
  | [], [], _ => by simp [are_archive_files_identical]
  | [], _ :: _, h => by simp at h
  | _ :: _, [], h => by simp at h
  | x :: xs, y :: ys, h => by
    have h' : xs.length = ys.length := by simpa using h
    have ih := are_identical_iff_eq xs ys h'
    simp only [are_archive_files_identical] at ih ⊢
    simp only [List.zip_cons_cons, List.all_cons, Bool.and_eq_true, beq_iff_eq]
    constructor
    · rintro ⟨rfl, h2⟩
      rw [ih.mp h2]
    · intro h1
      injection h1 with hh1 hh2
      exact ⟨hh1, ih.mpr hh2⟩

/-- C9: row comparison over two same-width rows is true iff the rows agree
at every index; it is symmetric and reflexive. -/
theorem rows_identical_spec (a b : EntryRow) (h : a.length = b.length) :
    (are_archive_files_identical a b = true ↔
      ∀ (i : Nat) (h1 : i < a.length) (h2 : i < b.length), a.get ⟨i, h1⟩ = b.get ⟨i, h2⟩) ∧
    are_archive_files_identical a b = are_archive_files_identical b a ∧
    are_archive_files_identical a a = true := by
  have core := are_identical_iff_eq a b h
  refine ⟨?_, ?_, (are_identical_iff_eq a a rfl).mpr rfl⟩
  · rw [core]
    constructor
    · rintro rfl i h1 h2
      rfl
    · intro hg
      exact List.ext_get h hg
  · have hba := are_identical_iff_eq b a h.symm
    cases hab : are_archive_files_identical a b with
    | true =>
      exact ((hba.mpr (core.mp hab).symm)).symm
    | false =>
      cases hba2 : are_archive_files_identical b a with
      | true =>
        have hEq : a = b := (hba.mp hba2).symm
        rw [core.mpr hEq] at hab
        simp at hab
      | false => rfl

/-- Concrete rows for the C9 witness. -/
def rowA : EntryRow := [ArchiveEntryPerReplica.File 1, ArchiveEntryPerReplica.Empty]

/-- Second concrete row for the C9 witness. -/
def rowB : EntryRow := [ArchiveEntryPerReplica.File 1, ArchiveEntryPerReplica.Directory 2]

/-- Witness: the C9 theorem applied at two concrete 2-wide rows. -/
theorem rows_identical_spec_witness :
    (are_archive_files_identical rowA rowB = true ↔
      ∀ (i : Nat) (h1 : i < rowA.length) (h2 : i < rowB.length),
        rowA.get ⟨i, h1⟩ = rowB.get ⟨i, h2⟩) ∧
    are_archive_files_identical rowA rowB = are_archive_files_identical rowB rowA ∧
    are_archive_files_identical rowA rowA = true :=
  rows_identical_spec rowA rowB (by decide)

/-- A one-regex, no-prefix rule set for the C10 witness. -/
def badIgnore : Ignore := { paths := [], regexes := [[RTok.lit 'z']] }

/-- C10: with at least one configured regex, a path without a UTF-8 string
form that no literal prefix catches makes `is_ignored` panic at
`to_str().unwrap()` (modelled as `none`); every path with a UTF-8 string
form gets a boolean, as does any path caught by a literal prefix. -/
theorem is_ignored_panics_on_invalid_utf8 (ig : Ignore) (p : MPath)
    (hv : p.validUtf8 = false)
    (hr : ig.regexes ≠ [])
    (hp : ∀ pre ∈ ig.paths, List.isPrefixOf pre p.components = false) :
    is_ignored ig p = none ∧
      (∀ q : MPath, q.validUtf8 = true → (is_ignored ig q).isSome = true) ∧
      (∀ q : MPath, (∃ pre ∈ ig.paths, List.isPrefixOf pre q.components = true) →
        is_ignored ig q = some true) := by
  refine ⟨?_, ?_, ?_⟩
  · have hany : ig.paths.any (fun ig1 => p.starts_with ig1) = false := by
      rw [List.any_eq_false]
      intro pre hpre
      simp [MPath.starts_with, hp pre hpre]
    have hie : ig.regexes.isEmpty = false := by
      cases hre : ig.regexes with
      | nil => exact absurd hre hr
      | cons r rs => rfl
    simp [is_ignored, hany, hie, MPath.to_str, hv]
  · intro q hq
    by_cases h1 : ig.paths.any (fun ig1 => q.starts_with ig1) = true
    · simp [is_ignored, h1]
    · by_cases h2 : ig.regexes.isEmpty = true
      · simp [is_ignored, h1, h2]
      · simp [is_ignored, h1, h2, MPath.to_str, hq]
  · intro q hq
    obtain ⟨pre, hpre, hmatch⟩ := hq
    have hany : ig.paths.any (fun ig1 => q.starts_with ig1) = true :=
      List.any_eq_true.mpr ⟨pre, hpre, by simp [MPath.starts_with, hmatch]⟩
    simp [is_ignored, hany]

/-- Witness: the C10 theorem applied at a concrete invalid-UTF-8 path and a
one-regex rule set. -/
theorem is_ignored_panics_on_invalid_utf8_witness :
    is_ignored badIgnore { components := ["x"], validUtf8 := false } = none ∧
      (∀ q : MPath, q.validUtf8 = true → (is_ignored badIgnore q).isSome = true) ∧
      (∀ q : MPath, (∃ pre ∈ badIgnore.paths, List.isPrefixOf pre q.components = true) →
        is_ignored badIgnore q = some true) :=
  is_ignored_panics_on_invalid_utf8 badIgnore
    { components := ["x"], validUtf8 := false } rfl (by decide) (by decide)

theorem isSome_entryOrInsertWith (m : PathEntryMap) (k k1 : RelPath) (v : EntryRow) :
    (alookup k1 (entryOrInsertWith m k v)).isSome = true ↔
      (alookup k1 m).isSome = true ∨ k1 = k := by
  unfold entryOrInsertWith
  by_cases h : (alookup k m).isSome = true
  · rw [if_pos h]
    constructor
    · exact fun h1 => Or.inl h1
    · rintro (h1 | rfl)
      · exact h1
      · exact h
  · rw [if_neg h, alookup_append]
    cases hk1 : alookup k1 m with
    | some w => simp
    | none =>
      by_cases hk : k = k1
      · subst hk
        simp [alookup]
      · simp [alookup, if_neg hk, Ne.symm hk]

theorem mem_entryOrInsertWith (m : PathEntryMap) (k : RelPath) (v : EntryRow)
    (p : RelPath × EntryRow) (h : p ∈ entryOrInsertWith m k v) :
    p ∈ m ∨ p = (k, v) := by
  unfold entryOrInsertWith at h
  by_cases hs : (alookup k m).isSome = true
  · rw [if_pos hs] at h
    exact Or.inl h
  · rw [if_neg hs] at h
    rcases List.mem_append.mp h with h1 | h1
    · exact Or.inl h1
    · exact Or.inr (List.mem_singleton.mp h1)

theorem nodupKeys_entryOrInsertWith (m : PathEntryMap) (k : RelPath) (v : EntryRow)
    (h : (m.map Prod.fst).Nodup) :
    ((entryOrInsertWith m k v).map Prod.fst).Nodup := by
  unfold entryOrInsertWith
  by_cases hs : (alookup k m).isSome = true
  · rw [if_pos hs]
    exact h
  · rw [if_neg hs]
    have hk : k ∉ m.map Prod.fst := by
      intro hmem
      exact hs ((alookup_isSome_iff k m).mpr hmem)
    simp only [List.map_append, List.map_cons, List.map_nil]
    rw [List.nodup_append]
    refine ⟨h, List.nodup_singleton k, ?_⟩
    intro x hx hk1
    rw [List.mem_singleton.mp hk1] at hx
    exact hk hx

theorem scanChildren_cons (fs : FS) (config : SyncInfo) (directory : RelPath)
    (name : String) (rest : List String) (m : PathEntryMap) :
    scanChildren fs config directory (name :: rest) m =
      scanChildren fs config directory rest
        (if is_ignored config.ignore
            { components := directory ++ [name], validUtf8 := true } = some true then m
         else entryOrInsertWith m (directory ++ [name])
           (from_roots fs config.roots (directory ++ [name]))) := rfl

theorem isSome_scanChildren (fs : FS) (config : SyncInfo) (directory : RelPath)
    (names : List String) : ∀ (m : PathEntryMap) (k : RelPath),
    (alookup k (scanChildren fs config directory names m)).isSome = true ↔
      (alookup k m).isSome = true ∨
        ∃ name ∈ names, k = directory ++ [name] ∧
          is_ignored config.ignore { components := k, validUtf8 := true } ≠ some true := by
  induction names with
  | nil =>
    intro m k
    simp [scanChildren]
  | cons name rest ih =>
    intro m k
    rw [scanChildren_cons]
    by_cases hig : is_ignored config.ignore
        { components := directory ++ [name], validUtf8 := true } = some true
    · rw [if_pos hig, ih]
      constructor
      · rintro (h | ⟨n1, hn1, rfl, hni⟩)
        · exact Or.inl h
        · exact Or.inr ⟨n1, List.mem_cons_of_mem _ hn1, rfl, hni⟩
      · rintro (h | ⟨n1, hn1, rfl, hni⟩)
        · exact Or.inl h
        · rcases List.mem_cons.mp hn1 with heq | hmem
          · subst heq
            exact absurd hig hni
          · exact Or.inr ⟨n1, hmem, rfl, hni⟩
    · rw [if_neg hig, ih]
      rw [isSome_entryOrInsertWith]
      constructor
      · rintro ((h | rfl) | ⟨n1, hn1, rfl, hni⟩)
        · exact Or.inl h
        · exact Or.inr ⟨name, List.mem_cons_self _ _, rfl, hig⟩
        · exact Or.inr ⟨n1, List.mem_cons_of_mem _ hn1, rfl, hni⟩
      · rintro (h | ⟨n1, hn1, rfl, hni⟩)
        · exact Or.inl (Or.inl h)
        · rcases List.mem_cons.mp hn1 with heq | hmem
          · subst heq
            exact Or.inl (Or.inr rfl)
          · exact Or.inr ⟨n1, hmem, rfl, hni⟩

theorem mem_scanChildren (fs : FS) (config : SyncInfo) (directory : RelPath)
    (names : List String) : ∀ (m : PathEntryMap) (p : RelPath × EntryRow),
    p ∈ scanChildren fs config directory names m →
      p ∈ m ∨ ∃ name, p = (directory ++ [name],
        from_roots fs config.roots (directory ++ [name])) := by
  induction names with
  | nil =>
    intro m p h
    exact Or.inl h
  | cons name rest ih =>
    intro m p h
    rw [scanChildren_cons] at h
    by_cases hig : is_ignored config.ignore
        { components := directory ++ [name], validUtf8 := true } = some true
    · rw [if_pos hig] at h
      exact ih m p h
    · rw [if_neg hig] at h
      rcases ih _ p h with h1 | h1
      · rcases mem_entryOrInsertWith _ _ _ _ h1 with h2 | h2
        · exact Or.inl h2
        · exact Or.inr ⟨name, h2⟩
      · exact Or.inr h1

theorem nodupKeys_scanChildren (fs : FS) (config : SyncInfo) (directory : RelPath)
    (names : List String) : ∀ (m : PathEntryMap),
    (m.map Prod.fst).Nodup →
      ((scanChildren fs config directory names m).map Prod.fst).Nodup := by
  induction names with
  | nil =>
    intro m h
    exact h
  | cons name rest ih =>
    intro m h
    rw [scanChildren_cons]
    by_cases hig : is_ignored config.ignore
        { components := directory ++ [name], validUtf8 := true } = some true
    · rw [if_pos hig]
      exact ih m h
    · rw [if_neg hig]
      exact ih _ (nodupKeys_entryOrInsertWith _ _ _ h)

theorem scanRoots_cons_dir (fs : FS) (config : SyncInfo) (directory : RelPath)
    (root : Root) (rest : List Root) (m : PathEntryMap) (present : Bool)
    (h : fs.isDir (root ++ directory) = true) :
    scanRoots fs config directory (root :: rest) m present =
      scanRoots fs config directory rest
        (scanChildren fs config directory (fs.childNames (root ++ directory)) m)
        present := by
  simp [scanRoots, h]

theorem scanRoots_cons_nondir (fs : FS) (config : SyncInfo) (directory : RelPath)
    (root : Root) (rest : List Root) (m : PathEntryMap) (present : Bool)
    (h : fs.isDir (root ++ directory) = false) :
    scanRoots fs config directory (root :: rest) m present =
      scanRoots fs config directory rest m false := by
  simp [scanRoots, h]

theorem scanRoots_snd (fs : FS) (config : SyncInfo) (directory : RelPath) :
    ∀ (rs : List Root) (m : PathEntryMap) (present : Bool),
    (scanRoots fs config directory rs m present).2 =
      (present && rs.all (fun root => fs.isDir (root ++ directory))) := by
  intro rs
  induction rs with
  | nil =>
    intro m present
    simp [scanRoots]
  | cons root rest ih =>
    intro m present
    cases h : fs.isDir (root ++ directory) with
    | true =>
      rw [scanRoots_cons_dir fs config directory root rest m present h, ih]
      simp [h]
    | false =>
      rw [scanRoots_cons_nondir fs config directory root rest m present h, ih]
      simp [h]

theorem isSome_scanRoots (fs : FS) (config : SyncInfo) (directory : RelPath) :
    ∀ (rs : List Root) (m : PathEntryMap) (present : Bool) (k : RelPath),
    (alookup k (scanRoots fs config directory rs m present).1).isSome = true ↔
      (alookup k m).isSome = true ∨
        ∃ root ∈ rs, fs.isDir (root ++ directory) = true ∧
          ∃ name ∈ fs.childNames (root ++ directory), k = directory ++ [name] ∧
            is_ignored config.ignore { components := k, validUtf8 := true } ≠ some true := by
  intro rs
  induction rs with
  | nil =>
    intro m present k
    simp [scanRoots]
  | cons root rest ih =>
    intro m present k
    cases h : fs.isDir (root ++ directory) with
    | true =>
      rw [scanRoots_cons_dir fs config directory root rest m present h, ih,
        isSome_scanChildren]
      constructor
      · rintro ((hm | ⟨n1, hn1, rfl, hni⟩) | ⟨r1, hr1, hd1, hrest⟩)
        · exact Or.inl hm
        · exact Or.inr ⟨root, List.mem_cons_self _ _, h, n1, hn1, rfl, hni⟩
        · exact Or.inr ⟨r1, List.mem_cons_of_mem _ hr1, hd1, hrest⟩
      · rintro (hm | ⟨r1, hr1, hd1, n1, hn1, rfl, hni⟩)
        · exact Or.inl (Or.inl hm)
        · rcases List.mem_cons.mp hr1 with heq | hmem
          · subst heq
            exact Or.inl (Or.inr ⟨n1, hn1, rfl, hni⟩)
          · exact Or.inr ⟨r1, hmem, hd1, n1, hn1, rfl, hni⟩
    | false =>
      rw [scanRoots_cons_nondir fs config directory root rest m present h, ih]
      constructor
      · rintro (hm | ⟨r1, hr1, hd1, hrest⟩)
        · exact Or.inl hm
        · exact Or.inr ⟨r1, List.mem_cons_of_mem _ hr1, hd1, hrest⟩
      · rintro (hm | ⟨r1, hr1, hd1, n1, hn1, rfl, hni⟩)
        · exact Or.inl hm
        · rcases List.mem_cons.mp hr1 with heq | hmem
          · subst heq
            rw [h] at hd1
            simp at hd1
          · exact Or.inr ⟨r1, hmem, hd1, n1, hn1, rfl, hni⟩

theorem mem_scanRoots (fs : FS) (config : SyncInfo) (directory : RelPath) :
    ∀ (rs : List Root) (m : PathEntryMap) (present : Bool) (p : RelPath × EntryRow),
    p ∈ (scanRoots fs config directory rs m present).1 →
      p ∈ m ∨ ∃ name, p = (directory ++ [name],
        from_roots fs config.roots (directory ++ [name])) := by
  intro rs
  induction rs with
  | nil =>
    intro m present p h
    exact Or.inl h
  | cons root rest ih =>
    intro m present p h
    cases hd : fs.isDir (root ++ directory) with
    | true =>
      rw [scanRoots_cons_dir fs config directory root rest m present hd] at h
      rcases ih _ _ p h with h1 | h1
      · exact mem_scanChildren fs config directory _ m p h1
      · exact Or.inr h1
    | false =>
      rw [scanRoots_cons_nondir fs config directory root rest m present hd] at h
      exact ih _ _ p h

theorem nodupKeys_scanRoots (fs : FS) (config : SyncInfo) (directory : RelPath) :
    ∀ (rs : List Root) (m : PathEntryMap) (present : Bool),
    (m.map Prod.fst).Nodup →
      (((scanRoots fs config directory rs m present).1).map Prod.fst).Nodup := by
  intro rs
  induction rs with
  | nil =>
    intro m present h
    exact h
  | cons root rest ih =>
    intro m present h
    cases hd : fs.isDir (root ++ directory) with
    | true =>
      rw [scanRoots_cons_dir fs config directory root rest m present hd]
      exact ih _ _ (nodupKeys_scanChildren fs config directory _ m h)
    | false =>
      rw [scanRoots_cons_nondir fs config directory root rest m present hd]
      exact ih _ _ h

theorem is_ignored_valid_isSome (ig : Ignore) (comps : List String) :
    (is_ignored ig { components := comps, validUtf8 := true }).isSome = true := by
  rw [is_ignored_valid]
  rfl

theorem is_ignored_ne_true_iff (ig : Ignore) (comps : List String) :
    is_ignored ig { components := comps, validUtf8 := true } ≠ some true ↔
      is_ignored ig { components := comps, validUtf8 := true } = some false := by
  have h := is_ignored_valid_isSome ig comps
  cases ho : is_ignored ig { components := comps, validUtf8 := true } with
  | none =>
    rw [ho] at h
    simp at h
  | some b =>
    cases b <;> simp

theorem isSome_scan_directory_contents (fs : FS) (directory : RelPath)
    (config : SyncInfo) (k : RelPath) :
    (alookup k (scan_directory_contents fs directory [] config)).isSome = true ↔
      ((∃ root ∈ config.roots, fs.isDir (root ++ directory) = true ∧
          ∃ name ∈ fs.childNames (root ++ directory), k = directory ++ [name] ∧
            is_ignored config.ignore { components := k, validUtf8 := true } ≠ some true) ∨
        (k = directory ∧ ∃ root ∈ config.roots, fs.isDir (root ++ directory) = false)) := by
  simp only [scan_directory_contents]
  rw [scanRoots_snd]
  rw [Bool.true_and]
  cases hall : config.roots.all (fun root => fs.isDir (root ++ directory)) with
  | true =>
    rw [if_pos rfl, isSome_scanRoots]
    simp only [alookup, Option.isSome_none, Bool.false_eq_true, false_or]
    constructor
    · intro h
      exact Or.inl h
    · rintro (h | ⟨rfl, r1, hr1, hf⟩)
      · exact h
      · rw [List.all_eq_true] at hall
        rw [hall r1 hr1] at hf
        simp at hf
  | false =>
    rw [if_neg (by simp), isSome_entryOrInsertWith, isSome_scanRoots]
    simp only [alookup, Option.isSome_none, Bool.false_eq_true, false_or]
    have hex : ∃ root ∈ config.roots, fs.isDir (root ++ directory) = false := by
      rw [List.all_eq_false] at hall
      obtain ⟨r1, hr1, hf⟩ := hall
      exact ⟨r1, hr1, by simpa using hf⟩
    constructor
    · rintro (h | rfl)
      · exact Or.inl h
      · exact Or.inr ⟨rfl, hex⟩
    · rintro (h | ⟨rfl, _⟩)
      · exact Or.inl h
      · exact Or.inr rfl

theorem row_scan_directory_contents (fs : FS) (directory : RelPath)
    (config : SyncInfo) (p : RelPath × EntryRow)
    (h : p ∈ scan_directory_contents fs directory [] config) :
    p.2 = from_roots fs config.roots p.1 := by
  simp only [scan_directory_contents] at h
  have hmem : p ∈ (scanRoots fs config directory config.roots [] true).1 ∨
      p = (directory, from_roots fs config.roots directory) := by
    by_cases hc : (scanRoots fs config directory config.roots [] true).2 = true
    · rw [if_pos hc] at h
      exact Or.inl h
    · rw [if_neg hc] at h
      rcases mem_entryOrInsertWith _ _ _ _ h with h1 | h1
      · exact Or.inl h1
      · exact Or.inr h1
  rcases hmem with h1 | h1
  · rcases mem_scanRoots fs config directory _ _ _ p h1 with h2 | h2
    · cases h2
    · obtain ⟨name, rfl⟩ := h2
      rfl
  · rw [h1]

theorem nodupKeys_scan_directory_contents (fs : FS) (directory : RelPath)
    (config : SyncInfo) :
    ((scan_directory_contents fs directory [] config).map Prod.fst).Nodup := by
  simp only [scan_directory_contents]
  have hnd := nodupKeys_scanRoots fs config directory config.roots [] true List.nodup_nil
  by_cases hc : (scanRoots fs config directory config.roots [] true).2 = true
  · rw [if_pos hc]
    exact hnd
  · rw [if_neg hc]
    exact nodupKeys_entryOrInsertWith _ _ _ hnd

/-- The filesystem for the C7 counterexample: nothing is a directory. -/
def cexFS : FS :=
  { isDir := fun _ => false
    childNames := fun _ => []
    entryAt := fun _ => ArchiveEntryPerReplica.Empty }

/-- The configuration for the C7 counterexample: two roots, with the scanned
directory itself on the ignore list. -/
def cexConfig : SyncInfo :=
  { roots := [["A"], ["B"]]
    ignore := { paths := [["x"]], regexes := [] } }

/-- Counterexample to C7 as stated: the scanned directory `x` is ignored,
yet the scanner output contains the synthesized row for it — the
synthesized insertion at the end of `scan_directory_contents` performs no
`is_ignored` check. -/
theorem scan_result_contains_ignored_directory :
    is_ignored cexConfig.ignore { components := ["x"], validUtf8 := true } = some true ∧
    alookup ["x"] (scan_directory_contents cexFS ["x"] [] cexConfig) =
      some (from_roots cexFS cexConfig.roots ["x"]) := by
  constructor
  · decide
  · decide

/-- C7 amended: every key of the scanner result other than the scanned
directory itself satisfies not-is_ignored — the ignore filter guards every
child insertion, but not the synthesized row for the directory itself. -/
theorem scan_keys_not_ignored_except_directory (fs : FS) (directory : RelPath)
    (config : SyncInfo) (k : RelPath)
    (hk : (alookup k (scan_directory_contents fs directory [] config)).isSome = true)
    (hne : k ≠ directory) :
    is_ignored config.ignore { components := k, validUtf8 := true } = some false := by
  rw [isSome_scan_directory_contents] at hk
  rcases hk with ⟨r1, hr1, hd1, n1, hn1, rfl, hni⟩ | ⟨hkd, _⟩
  · exact (is_ignored_ne_true_iff _ _).mp hni
  · exact absurd hkd hne

/-- A one-root filesystem whose scanned directory exists and holds one
child, for the C7 witness. -/
def okFS : FS :=
  { isDir := fun p => decide (p = ["A", "d"])
    childNames := fun _ => ["f.txt"]
    entryAt := fun _ => ArchiveEntryPerReplica.File 1 }

/-- The configuration for the C7 witness: one root, no ignore rules. -/
def okConfig : SyncInfo := { roots := [["A"]], ignore := { paths := [], regexes := [] } }

/-- Witness: the amended C7 theorem applied at a concrete one-root scan
whose result contains the child `d/f.txt`. -/
theorem scan_keys_not_ignored_except_directory_witness :
    is_ignored okConfig.ignore { components := ["d", "f.txt"], validUtf8 := true } =
      some false :=
  scan_keys_not_ignored_except_directory okFS ["d"] okConfig ["d", "f.txt"]
    (by decide) (by decide)

/-- C8: the scanner result maps each relative path at most once; its keys
are exactly the union over all roots of the non-ignored direct children of
`root/directory`, plus `directory` itself when at least one root lacks it
as a directory; and each row is computed by probing all N roots. -/
theorem scan_union_spec (fs : FS) (directory : RelPath) (config : SyncInfo) :
    ((scan_directory_contents fs directory [] config).map Prod.fst).Nodup ∧
    (∀ k, (alookup k (scan_directory_contents fs directory [] config)).isSome = true ↔
      ((∃ root ∈ config.roots, fs.isDir (root ++ directory) = true ∧
          ∃ name ∈ fs.childNames (root ++ directory), k = directory ++ [name] ∧
            is_ignored config.ignore { components := k, validUtf8 := true } = some false) ∨
        (k = directory ∧ ∃ root ∈ config.roots, fs.isDir (root ++ directory) = false))) ∧
    (∀ p ∈ scan_directory_contents fs directory [] config,
      p.2 = from_roots fs config.roots p.1 ∧ p.2.length = config.roots.length) := by
  refine ⟨nodupKeys_scan_directory_contents fs directory config, ?_, ?_⟩
  · intro k
    rw [isSome_scan_directory_contents]
    constructor
    · rintro (⟨r1, hr1, hd1, n1, hn1, rfl, hni⟩ | h)
      · exact Or.inl ⟨r1, hr1, hd1, n1, hn1, rfl, (is_ignored_ne_true_iff _ _).mp hni⟩
      · exact Or.inr h
    · rintro (⟨r1, hr1, hd1, n1, hn1, rfl, hni⟩ | h)
      · exact Or.inl ⟨r1, hr1, hd1, n1, hn1, rfl, (is_ignored_ne_true_iff _ _).mpr hni⟩
      · exact Or.inr h
  · intro p hp
    have h1 := row_scan_directory_contents fs directory config p hp
    refine ⟨h1, ?_⟩
    rw [h1]
    simp [from_roots]

end Ubiquity
